import Mathlib

/-!
# Verification of the whats-up-dug core against its specification

Shallow embedding of the core subsystems of the repository:

* the navigation state machine (`src/hooks/use-navigation.ts`),
* the vertical/horizontal windowing of `DataTable`
  (`src/components/data-table.tsx`),
* the relationship-inference engine (`src/relationships.ts`),
* the Harper query client: request-body construction, TTL cache,
  connect-failure handling and the retry/backoff loop
  (`src/api/client.ts`).

Pure functions of the source are translated into Lean functions; the
stateful query client is modelled by explicit state passing, with the
wall clock and the answers of the transport supplied as arguments.
JavaScript strings are modelled as `String` (or `List Char` where proofs
manipulate their characters); JavaScript numbers as `Nat`/`Int`.
-/

namespace WhatsUpDug

/-! ## Navigation state machine (`src/hooks/use-navigation.ts`)

The TS reducer acts on a record holding `stack: ScreenEntry[]`.  The
reducer never inspects the contents of a frame, so the frame type is a
parameter `F`.
-/

inductive NavAction (F : Type u) where
  | push (frame : F)
  | pop
  | reset
deriving DecidableEq

/-- The `reducer` of `use-navigation.ts`.
`PUSH` appends, `POP` drops the last frame unless `length <= 1`,
`RESET` keeps only `stack[0]` (the stack is never empty in practice;
on an empty stack we return `[]`, mirroring that there is no frame). -/
def navReducer {F : Type u} (stack : List F) : NavAction F → List F
  | .push f => stack ++ [f]
  | .pop => if stack.length ≤ 1 then stack else stack.dropLast
  | .reset =>
    match stack with
    | [] => []
    | root :: _ => [root]

/-- Running the reducer from the initial single-root state over a
sequence of dispatched actions (`useNavigation` starts from
`{ stack: [{ screen: initialScreen, params: {} }] }`). -/
def navRun {F : Type u} (root : F) (acts : List (NavAction F)) : List F :=
  acts.foldl navReducer [root]

/-! ## Vertical row windowing (`DataTable`, `data-table.tsx` lines 128-138) -/

/-- The viewport window of `DataTable`: `windowSize = min(maxVisibleRows,
total)`; `start = selectedRow - windowSize + 1` when `selectedRow >=
windowSize`, else `0`; then `start = max(0, min(start, total -
windowSize))`.  Returns `(windowStart, windowEnd)`. -/
def rowWindow (total selectedRow maxVisibleRows : Nat) : Nat × Nat :=
  let windowSize := min maxVisibleRows total
  let start0 := if selectedRow ≥ windowSize then selectedRow - windowSize + 1 else 0
  let start := max 0 (min start0 (total - windowSize))
  (start, start + windowSize)

/-! ## Horizontal column windowing (`DataTable`, `data-table.tsx` lines 62-123)

Constants of the source: `COL_GAP = 2`, `MAX_COL_WIDTH = 30`,
`MIN_COL_WIDTH = 8`, `ROW_MARKER_WIDTH = 4`.  The code computes, per
column, a natural width, then packs columns from a clamped starting
index into the budget `effectiveWidth - ROW_MARKER_WIDTH`.  We model the
packing over the list of widths (the parallel list of column names is
determined by positions, so visible-column count and hidden counts are
faithful).  Budgets are `Int` because the JS running balance may go
negative when the terminal is narrower than the row marker.
-/

/-- Natural width of one column: start from the header length, raise to
the longest formatted cell, then clamp to `[8, 30]`
(`data-table.tsx` lines 69-80). -/
def naturalWidth (headerLen : Nat) (cellLens : List Nat) : Nat :=
  max 8 (min (cellLens.foldl max headerLen) 30)

/-- The forward packing loop (`data-table.tsx` lines 102-115): the first
visible column consumes its width, each later one consumes width plus
the gap 2; on the first column that does not fit, if nothing is visible
yet it is clipped to `max 8 available`, and the loop breaks. -/
def packCols : List Int → Int → Bool → List Int
  | [], _, _ => []
  | w :: rest, available, first =>
    let needed := if first then w else w + 2
    if available < needed then
      if first then [max 8 available] else []
    else
      w :: packCols rest (available - needed) false

/-- The backward fitting loop computing the maximal legal start
(`data-table.tsx` lines 87-95): called on the reversed width list, so
`first = true` corresponds to the last column (which consumes no gap).
Returns how many trailing columns fit in the budget. -/
def backFit : List Int → Int → Bool → Nat
  | [], _, _ => 0
  | w :: rest, budget, first =>
    let needed := if first then w else w + 2
    if budget < needed then 0 else backFit rest (budget - needed) false + 1

/-- The full horizontal-windowing computation of `DataTable`
(lines 83-123): returns `(visible column widths, hiddenLeft,
hiddenRight)`.  `maxStart` starts at `length - 1` and is lowered to `i`
for every trailing column that fits, hence `length - max fit 1`. -/
def columnWindow (widths : List Int) (colStart : Nat) (effectiveWidth : Int) :
    List Int × Nat × Nat :=
  match widths with
  | [] => ([], 0, 0)
  | _ =>
    let n := widths.length
    let fit := backFit widths.reverse (effectiveWidth - 4) true
    let maxStart := n - max fit 1
    let clamped := min colStart maxStart
    let vis := packCols (widths.drop clamped) (effectiveWidth - 4) true
    (vis, clamped, n - clamped - vis.length)

/-- Cost of showing the first `k` columns, as described by the claim:
the first consumes its width, each subsequent one width + 2. -/
def prefixCost (ws : List Int) (k : Nat) : Int :=
  (ws.take k).sum + 2 * ((k : Int) - 1)

/-! ## Relationship inference (`src/relationships.ts`)

Names are modelled as `List Char` (the character sequence of the JS
string).  An attribute carries its name and, when the server supplied
relationship metadata with a string `table` field, that target name
(metadata that is absent or malformed both fall through to convention
matching in the source, so both are `none` here).  `allTables` is the
ordered key/value sequence of the JS object (`Object.entries`).
-/

structure RAttr where
  attrName : List Char
  relationship : Option (List Char)
deriving DecidableEq, Repr

structure RTable where
  attributes : List RAttr
deriving DecidableEq, Repr

inductive RDirection where
  | forward
  | reverse
deriving DecidableEq, Repr

inductive RSource where
  | api
  | inferred
deriving DecidableEq, Repr

structure RelationshipInfo where
  attrName : List Char
  targetTable : List Char
  direction : RDirection
  reverseAttribute : Option (List Char)
  source : RSource
deriving DecidableEq, Repr

/-- `name.toLowerCase()` on the character list. -/
def toLowerL (l : List Char) : List Char := l.map Char.toLower

/-- The suffix-stripping convention (`relationships.ts` lines 56-60 and
88-92): names ending in `Id` with length > 2 lose the last 2 characters,
else names ending in `_id` with length > 3 lose the last 3. -/
def stripIdSuffix (name : List Char) : Option (List Char) :=
  if name.drop (name.length - 2) = ['I', 'd'] ∧ 2 < name.length then
    some (name.take (name.length - 2))
  else if name.drop (name.length - 3) = ['_', 'i', 'd'] ∧ 3 < name.length then
    some (name.take (name.length - 3))
  else
    none

/-- `Map.set` semantics on an association list: overwrite in place when
the key exists, else append (only `get` is observable downstream). -/
def mapSetL (m : List (List Char × List Char)) (k v : List Char) :
    List (List Char × List Char) :=
  if m.any (fun p => decide (p.1 = k)) then
    m.map (fun p => if p.1 = k then (p.1, v) else p)
  else
    m ++ [(k, v)]

/-- `Map.get`: value of the (unique) entry with the given key. -/
def mapGetL (m : List (List Char × List Char)) (k : List Char) :
    Option (List Char) :=
  (m.find? (fun p => decide (p.1 = k))).map (fun p => p.2)

/-- `tableNameLower` (`relationships.ts` lines 25-28): maps lowercased
table names to their original spelling. -/
def buildLowerMap (names : List (List Char)) : List (List Char × List Char) :=
  names.foldl (fun m n => mapSetL m (toLowerL n) n) []

/-- Dedup key for a forward edge: `fwd:NAME:TARGET`. -/
def fwdKey (n t : List Char) : List Char :=
  ['f', 'w', 'd', ':'] ++ n ++ [':'] ++ t

/-- Dedup key for a reverse edge: `rev:OTHER:NAME`. -/
def revKey (o n : List Char) : List Char :=
  ['r', 'e', 'v', ':'] ++ o ++ [':'] ++ n

/-- A forward `RelationshipInfo` as pushed by the source. -/
def fwdEdge (n t : List Char) (src : RSource) : RelationshipInfo :=
  ⟨n, t, .forward, none, src⟩

/-- A reverse `RelationshipInfo` as pushed by the source: the attribute
on the other table, the other table as target, and the same attribute
recorded as the back-reference. -/
def revEdge (n o : List Char) : RelationshipInfo :=
  ⟨n, o, .reverse, some n, .inferred⟩

/-- The `seen`-set guard around `results.push` (`relationships.ts`):
state is `(seen keys, results)`. -/
def addEdge (st : List (List Char) × List RelationshipInfo) (key : List Char)
    (e : RelationshipInfo) : List (List Char) × List RelationshipInfo :=
  if key ∈ st.1 then st else (key :: st.1, st.2 ++ [e])

/-- Forward pass (`relationships.ts` lines 31-78): API metadata wins and
skips convention matching; otherwise strip the suffix, look the base up
case-insensitively, and emit unless the match is the table itself. -/
def fwdPass (tableName : List Char) (tmap : List (List Char × List Char)) :
    List RAttr → List (List Char) × List RelationshipInfo →
    List (List Char) × List RelationshipInfo
  | [], st => st
  | attr :: rest, st =>
    match attr.relationship with
    | some t =>
      fwdPass tableName tmap rest
        (addEdge st (fwdKey attr.attrName t) (fwdEdge attr.attrName t .api))
    | none =>
      match stripIdSuffix attr.attrName with
      | none => fwdPass tableName tmap rest st
      | some base =>
        match mapGetL tmap (toLowerL base) with
        | none => fwdPass tableName tmap rest st
        | some m =>
          if m ≠ tableName then
            fwdPass tableName tmap rest
              (addEdge st (fwdKey attr.attrName m) (fwdEdge attr.attrName m .inferred))
          else
            fwdPass tableName tmap rest st

/-- Inner loop of the reverse pass over one other table
(`relationships.ts` lines 84-109). -/
def revAttrs (tableName otherName : List Char) :
    List RAttr → List (List Char) × List RelationshipInfo →
    List (List Char) × List RelationshipInfo
  | [], st => st
  | attr :: rest, st =>
    match stripIdSuffix attr.attrName with
    | none => revAttrs tableName otherName rest st
    | some base =>
      if toLowerL base = toLowerL tableName then
        revAttrs tableName otherName rest
          (addEdge st (revKey otherName attr.attrName) (revEdge attr.attrName otherName))
      else
        revAttrs tableName otherName rest st

/-- Reverse pass (`relationships.ts` lines 81-110): every other table is
scanned; the table itself is skipped. -/
def revPass (tableName : List Char) :
    List (List Char × RTable) → List (List Char) × List RelationshipInfo →
    List (List Char) × List RelationshipInfo
  | [], st => st
  | (otherName, otherSchema) :: rest, st =>
    if otherName = tableName then
      revPass tableName rest st
    else
      revPass tableName rest (revAttrs tableName otherName otherSchema.attributes st)

/-- `inferRelationships(tableName, tableSchema, allTables)`. -/
def inferRelationships (tableName : List Char) (tableSchema : RTable)
    (allTables : List (List Char × RTable)) : List RelationshipInfo :=
  let tmap := buildLowerMap (allTables.map (fun p => p.1))
  (revPass tableName allTables (fwdPass tableName tmap tableSchema.attributes ([], []))).2

/-! ## Query client, string helpers (`src/api/client.ts`) -/

/-- Substring test on character lists (JS `String.includes`). -/
def containsSubL (pat : List Char) : List Char → Bool
  | [] => pat.isEmpty
  | c :: rest => pat.isPrefixOf (c :: rest) || containsSubL pat rest

/-- `isNetworkError` (`client.ts` lines 32-47) on an `Error`:
`instanceof TypeError`, or the lowercased message contains one of the
seven transport-failure markers.  (Non-`Error` values, for which the
source returns `false`, do not occur in the modelled paths: every throw
in them is an `Error`.) -/
def isNetworkError (isTypeError : Bool) (msg : String) : Bool :=
  isTypeError ||
    (let m := msg.data.map Char.toLower
     containsSubL ("fetch failed").data m ||
     containsSubL ("econnrefused").data m ||
     containsSubL ("econnreset").data m ||
     containsSubL ("etimedout").data m ||
     containsSubL ("enetunreach").data m ||
     containsSubL ("socket hang up").data m ||
     containsSubL ("abort").data m)

/-- JS `String.startsWith`. -/
def startsWithS (s pre : String) : Bool := pre.data.isPrefixOf s.data

/-! ## Query client, retry/backoff loop (`client.ts` lines 235-284)

One call of `execute` is driven by the transport: `outcomes k` is what
the `k`-th attempt (0-based) would encounter.  The model records the
number of attempts actually performed and the sleeps taken before
retries; millisecond timing of individual attempts is not modelled.
-/

/-- What one network attempt encounters.  `ok` is a 2xx response with a
JSON body; `http` is a non-2xx response with the given status, body text
and status text; `thrown` is an exception out of `fetch`/`json` (an
`Error`, with its `TypeError` flag and message). -/
inductive Outcome where
  | ok
  | http (status : Nat) (bodyText statusText : String)
  | thrown (isTypeError : Bool) (msg : String)

inductive ExecResult where
  | success (attempts : Nat) (sleeps : List Nat)
  | failure (attempts : Nat) (sleeps : List Nat) (errMsg : String)
deriving DecidableEq, Repr

def MAX_RETRIES : Nat := 3

def INITIAL_BACKOFF_MS : Nat := 500

/-- `INITIAL_BACKOFF_MS * Math.pow(2, attempt - 1)` (`client.ts` line 242). -/
def backoffSleep (attempt : Nat) : Nat := INITIAL_BACKOFF_MS * 2 ^ (attempt - 1)

/-- The message of a non-2xx response (`client.ts` line 261). -/
def apiErrorMsg (status : Nat) (bodyText statusText : String) : String :=
  "Harper API error (" ++ toString status ++ "): " ++
    (if bodyText = "" then statusText else bodyText)

/-- The catch-clause test (`client.ts` line 276): an `Error` is rethrown
immediately (ending the loop) unless it is a network error or its
message starts with `Harper API error (5`. -/
def rethrows (isTypeError : Bool) (msg : String) : Bool :=
  !isNetworkError isTypeError msg && !startsWithS msg ("Harper API error (5")

/-- The retry loop of `execute`, fuel = remaining loop iterations
(`MAX_RETRIES + 1 - attempt`).  A 4xx response is thrown inside the
`try` and lands in the same catch clause as transport errors, so it is
re-examined by `rethrows` — which is what lets a 4xx whose body text
contains a transport marker be retried. -/
def execLoop (outcomes : Nat → Outcome) :
    Nat → Nat → List Nat → Option String → ExecResult
  | 0, attempt, sleeps, lastError =>
    .failure attempt sleeps (lastError.getD ("Request failed after retries"))
  | fuel + 1, attempt, sleeps, _lastError =>
    let sleeps := if attempt > 0 then sleeps ++ [backoffSleep attempt] else sleeps
    match outcomes attempt with
    | .ok => .success (attempt + 1) sleeps
    | .http status bodyText statusText =>
      let msg := apiErrorMsg status bodyText statusText
      if 400 ≤ status ∧ status < 500 then
        if rethrows false msg then .failure (attempt + 1) sleeps msg
        else execLoop outcomes fuel (attempt + 1) sleeps (some msg)
      else
        execLoop outcomes fuel (attempt + 1) sleeps (some msg)
    | .thrown isTypeError msg =>
      if rethrows isTypeError msg then .failure (attempt + 1) sleeps msg
      else execLoop outcomes fuel (attempt + 1) sleeps (some msg)

/-- A full `execute` call: up to `MAX_RETRIES + 1` attempts. -/
def executeModel (outcomes : Nat → Outcome) : ExecResult :=
  execLoop outcomes (MAX_RETRIES + 1) 0 [] none

/-! ## Query client, TTL cache (`client.ts` lines 57-58, 93-107, 211-233) -/

def cacheTTL : Nat := 60000

structure ClientState (α : Type u) where
  url : String
  authHeader : String
  connected : Bool
  cache : List (String × Nat × α)
deriving DecidableEq, Repr

/-- The pristine state of a freshly constructed `HarperClient`. -/
def initialClientState (α : Type u) : ClientState α :=
  { url := "", authHeader := "", connected := false, cache := [] }

/-- `Map.get` on the cache: the entry (timestamp, data) for a key. -/
def findCacheEntry {α : Type u} (m : List (String × Nat × α)) (key : String) :
    Option (Nat × α) :=
  (m.find? (fun e => decide (e.1 = key))).map (fun e => e.2)

/-- `Map.delete` on the cache. -/
def deleteCacheKey {α : Type u} (m : List (String × Nat × α)) (key : String) :
    List (String × Nat × α) :=
  m.filter (fun e => decide (e.1 ≠ key))

/-- `setCache` (`client.ts` lines 231-233): `Map.set` overwrites in
place or appends. -/
def setCacheKey {α : Type u} (m : List (String × Nat × α)) (key : String)
    (now : Nat) (d : α) : List (String × Nat × α) :=
  if m.any (fun e => decide (e.1 = key)) then
    m.map (fun e => if e.1 = key then (key, now, d) else e)
  else
    m ++ [(key, now, d)]

/-- `getCached` (`client.ts` lines 221-229): a hit older than the TTL is
deleted and reported absent (lazy eviction); `Date.now() - timestamp`
is the truncated difference, matching the JS comparison for any clock.
Returns the hit and the possibly-updated cache. -/
def getCached {α : Type u} (m : List (String × Nat × α)) (key : String) (now : Nat) :
    Option α × List (String × Nat × α) :=
  match findCacheEntry m key with
  | none => (none, m)
  | some (ts, d) =>
    if now - ts > cacheTTL then (none, deleteCacheKey m key) else (some d, m)

/-- One `describeAll()` call at time `now` against the given cache;
`fresh` is the (validated) value the network would deliver if asked.
Returns (result, new cache, whether a network call was issued). -/
def describeAllModel {α : Type u} (cache : List (String × Nat × α)) (now : Nat)
    (fresh : α) : α × List (String × Nat × α) × Bool :=
  match getCached cache ("describe_all") now with
  | (some d, cache2) => (d, cache2, false)
  | (none, cache2) => (fresh, setCacheKey cache2 ("describe_all") now fresh, true)

/-- `clearCache()` (`client.ts` lines 211-213). -/
def clearCacheModel {α : Type u} (_cache : List (String × Nat × α)) :
    List (String × Nat × α) :=
  ([] : List (String × Nat × α))

/-! ## Query client, `connect` (`client.ts` lines 61-87) -/

/-- `url.replace(/\/+$/, '')`. -/
def stripTrailingSlashes (s : String) : String :=
  ⟨(s.data.reverse.dropWhile (fun c => decide (c = '/'))).reverse⟩

/-- The `Basic` auth header.  `btoa` (base64) is injective bookkeeping
no claim inspects, so the model keeps the raw credential pair. -/
def basicAuthHeader (username password : String) : String :=
  "Basic " ++ username ++ ":" ++ password

/-- The error classification of the `connect` catch clause
(`client.ts` lines 76-85): lowercased message containing `401` or
`unauthorized` gives the authentication error; else containing
`econnrefused` or `fetch failed` gives the cannot-reach error (with the
original, unstripped `url` argument interpolated); anything else is
wrapped generically. -/
def classifyConnectError (origUrl : String) (emsg : String) : String :=
  let m := emsg.data.map Char.toLower
  if containsSubL ("401").data m || containsSubL ("unauthorized").data m then
    "Authentication failed: invalid username or password"
  else if containsSubL ("econnrefused").data m || containsSubL ("fetch failed").data m then
    "Cannot reach Harper instance at " ++ origUrl ++ " — is it running?"
  else
    "Failed to connect to Harper: " ++ emsg

/-- `connect(url, username, password)`: sets url/auth, resets
`connected`, clears the cache, then probes with `describeAll()` (whose
outcome, an `Error` message or the validated response, is the `probe`
argument).  On success marks connected (the probe result is cached at
time `now`); on failure clears the credentials and returns the
classified error.  The previous state is accepted only to show it is
irrelevant: every field is overwritten. -/
def connectModel {α : Type u} (_prev : ClientState α) (url username password : String)
    (now : Nat) (probe : Except String α) : ClientState α × Except String Unit :=
  let st : ClientState α :=
    { url := stripTrailingSlashes url, authHeader := basicAuthHeader username password,
      connected := false, cache := [] }
  match probe with
  | .ok d =>
    ({ st with connected := true, cache := [(("describe_all" : String), now, d)] }, .ok ())
  | .error e =>
    ({ st with url := "", authHeader := "" }, .error (classifyConnectError url e))

/-! ## Query client, search request bodies (`client.ts` lines 155-197)

The request body is modelled as the ordered field list of the JSON
object.  Condition elements are forwarded verbatim and never inspected
(only `conditions.length` is read), so their type is a parameter `C`.
-/

inductive BoolOp where
  | and
  | or
deriving DecidableEq, Repr

def encodeBoolOp : BoolOp → String
  | .and => "and"
  | .or => "or"

/-- `SortSpec` of `types.ts` (source field names: `attribute`,
`descending`, `next`). -/
inductive SortSpecM where
  | mk (attrName : String) (descending : Option Bool) (next : Option SortSpecM)

def SortSpecM.attrName : SortSpecM → String
  | .mk a _ _ => a

/-- A JSON field value as placed into a request body. -/
inductive FieldVal (C : Type u) where
  | str (s : String)
  | num (n : Int)
  | conds (cs : List C)
  | sortv (s : SortSpecM)
  | strs (l : List String)

/-- `SearchByValueParams` (source field name of `attrName` is
`attribute`). -/
structure SearchByValueParams where
  database : Option String
  table : String
  attrName : String
  value : String
  getAttributes : Option (List String)
  limit : Option Int
  offset : Option Int

/-- `SearchByConditionsParams & { hashAttribute?: string }`. -/
structure SearchByConditionsParams (C : Type u) where
  database : Option String
  table : String
  conditions : List C
  operator : Option BoolOp
  offset : Option Int
  limit : Option Int
  sort : Option SortSpecM
  getAttributes : Option (List String)
  hashAttribute : Option String

/-- Body built by `searchByValue` (`client.ts` lines 155-168).  The
guards mirror the source: `params.database` is a JS truthiness test
(an empty string is skipped), `getAttributes` only tests presence, and
`limit`/`offset` test `!== undefined`. -/
def searchByValueBody (C : Type u) (p : SearchByValueParams) :
    List (String × FieldVal C) :=
  [(("operation" : String), FieldVal.str ("search_by_value")),
   (("table" : String), FieldVal.str p.table),
   (("search_attribute" : String), FieldVal.str p.attrName),
   (("search_value" : String), FieldVal.str p.value)]
  ++ (match p.database with
      | some d => if d = "" then [] else [(("schema" : String), FieldVal.str d)]
      | none => [])
  ++ (match p.getAttributes with
      | some a => [(("get_attributes" : String), FieldVal.strs a)]
      | none => [])
  ++ (match p.limit with
      | some l => [(("limit" : String), FieldVal.num l)]
      | none => [])
  ++ (match p.offset with
      | some o => [(("offset" : String), FieldVal.num o)]
      | none => [])

/-- Body built by `searchByConditions` when the condition list is
non-empty (`client.ts` lines 184-196). -/
def searchByConditionsBody (C : Type u) (p : SearchByConditionsParams C) :
    List (String × FieldVal C) :=
  [(("operation" : String), FieldVal.str ("search_by_conditions")),
   (("table" : String), FieldVal.str p.table),
   (("conditions" : String), FieldVal.conds p.conditions)]
  ++ (match p.database with
      | some d => if d = "" then [] else [(("schema" : String), FieldVal.str d)]
      | none => [])
  ++ (match p.operator with
      | some o => [(("operator" : String), FieldVal.str (encodeBoolOp o))]
      | none => [])
  ++ (match p.offset with
      | some o => [(("offset" : String), FieldVal.num o)]
      | none => [])
  ++ (match p.limit with
      | some l => [(("limit" : String), FieldVal.num l)]
      | none => [])
  ++ (match p.sort with
      | some s => [(("sort" : String), FieldVal.sortv s)]
      | none => [])
  ++ (match p.getAttributes with
      | some a => [(("get_attributes" : String), FieldVal.strs a)]
      | none => [])

/-- `searchByConditions` (`client.ts` lines 170-197): an empty condition
list is rewritten to a `searchByValue` call with wildcard `*` and the
attribute chain `params.hashAttribute ?? params.sort?.attribute ?? 'id'`
(nullish coalescing: an empty string `hashAttribute` is kept). -/
def searchByConditionsRequest (C : Type u) (p : SearchByConditionsParams C) :
    List (String × FieldVal C) :=
  if p.conditions.length = 0 then
    searchByValueBody C
      { database := p.database, table := p.table,
        attrName :=
          match p.hashAttribute with
          | some hsh => hsh
          | none =>
            match p.sort with
            | some s => s.attrName
            | none => "id",
        value := "*", getAttributes := p.getAttributes,
        limit := p.limit, offset := p.offset }
  else
    searchByConditionsBody C p

/-- Field lookup in a request body (first occurrence). -/
def getField {C : Type u} : List (String × FieldVal C) → String → Option (FieldVal C)
  | [], _ => none
  | (k, v) :: rest, key => if key = k then some v else getField rest key

/-! ## Proof infrastructure -/

/-- The auth branch of the `connect` classifier: lowercased message
contains `401` or `unauthorized`. -/
def matchesAuthPattern (emsg : String) : Bool :=
  let m := emsg.data.map Char.toLower
  containsSubL ("401").data m || containsSubL ("unauthorized").data m

/-- The unreachable branch of the `connect` classifier: lowercased
message contains `econnrefused` or `fetch failed`. -/
def matchesUnreachablePattern (emsg : String) : Bool :=
  let m := emsg.data.map Char.toLower
  containsSubL ("econnrefused").data m || containsSubL ("fetch failed").data m

/-- Invariant carried through the reverse pass of
`inferRelationships` for table `B`: every seen key is either a
forward key, or the key of a reverse edge already in the results whose
attribute satisfies the convention match against `B`. -/
def RevInv (B : List Char) (st : List (List Char) × List RelationshipInfo) : Prop :=
  ∀ k ∈ st.1, (∃ n t, k = fwdKey n t) ∨
    (∃ o m base, k = revKey o m ∧ revEdge m o ∈ st.2 ∧
      stripIdSuffix m = some base ∧ toLowerL base = toLowerL B)

/-- An attribute with the given name and no API relationship metadata. -/
def attrOf (s : String) : RAttr := ⟨s.data, none⟩

/-- A table schema with the given attribute list. -/
def tableOf (l : List RAttr) : RTable := ⟨l⟩

/-- Concrete fallback-path parameters with every optional field absent
(conditions empty, no hashAttribute, no sort, no limit, no offset). -/
def c2Params : SearchByConditionsParams Nat :=
  { database := none, table := "User", conditions := [], operator := none,
    offset := none, limit := none, sort := none, getAttributes := none,
    hashAttribute := none }

/-- Concrete fallback-path parameters mirroring the test
`searchByConditions with empty conditions falls back to searchByValue`. -/
def c2ParamsW : SearchByConditionsParams Nat :=
  { database := some ("data"), table := "User", conditions := [], operator := none,
    offset := some 0, limit := some 10, sort := none, getAttributes := none,
    hashAttribute := some ("id") }

/-! ## Theorems -/

theorem navReducer_preserves {F : Type u} (root : F) (s : List F) (a : NavAction F)
    (h1 : s ≠ []) (h2 : s.head? = some root) :
    navReducer s a ≠ [] ∧ (navReducer s a).head? = some root := by
  cases a with
  | push f =>
    cases s with
    | nil => exact absurd rfl h1
    | cons x t =>
      simp only [List.head?_cons, Option.some.injEq] at h2
      constructor
      · simp [navReducer]
      · simp [navReducer, h2]
  | pop =>
    by_cases hlen : s.length ≤ 1
    · simp only [navReducer, if_pos hlen]
      exact ⟨h1, h2⟩
    · simp only [navReducer, if_neg hlen]
      rcases s with _ | ⟨x, _ | ⟨y, t⟩⟩
      · simp at hlen
      · simp at hlen
      · simp only [List.head?_cons, Option.some.injEq] at h2
        constructor
        · simp
        · simp [h2]
  | reset =>
    cases s with
    | nil => exact absurd rfl h1
    | cons x t =>
      simp only [navReducer]
      simp only [List.head?_cons, Option.some.injEq] at h2
      simp [h2]

/-- Claim C6: starting from the initial single-frame state, every
sequence of PUSH, POP and RESET transitions yields a non-empty stack
whose first entry is still the initial root frame. -/
theorem nav_stack_invariant {F : Type u} (root : F) (acts : List (NavAction F)) :
    navRun root acts ≠ [] ∧ (navRun root acts).head? = some root := by
  suffices h : ∀ s : List F, s ≠ [] → s.head? = some root →
      acts.foldl navReducer s ≠ [] ∧ (acts.foldl navReducer s).head? = some root by
    exact h [root] (by simp) (by simp)
  induction acts with
  | nil => intro s h1 h2; exact ⟨h1, h2⟩
  | cons a rest ih =>
    intro s h1 h2
    have step := navReducer_preserves root s a h1 h2
    simpa using ih (navReducer s a) step.1 step.2

/-- Claim C5: on a stack of more than one frame, POP removes exactly the
last frame (the length drops by exactly 1 and the remaining frames are
the unchanged original prefix); on a stack of exactly one frame, POP
returns the state unchanged (the source returns the very same object,
which a shallow embedding renders as equality). -/
theorem pop_behavior {F : Type u} (s : List F) :
    (1 < s.length →
      (navReducer s NavAction.pop).length + 1 = s.length ∧
      ∃ last, s = navReducer s NavAction.pop ++ [last]) ∧
    (s.length = 1 → navReducer s NavAction.pop = s) := by
  constructor
  · intro h
    have hne : s ≠ [] := by
      intro hs; rw [hs] at h; simp at h
    have hred : navReducer s NavAction.pop = s.dropLast := by
      simp only [navReducer, if_neg (by omega : ¬ s.length ≤ 1)]
    refine ⟨?_, ⟨s.getLast hne, ?_⟩⟩
    · rw [hred, List.length_dropLast]; omega
    · rw [hred, List.dropLast_append_getLast hne]
  · intro h
    simp only [navReducer, if_pos (by omega : s.length ≤ 1)]

theorem pop_behavior_witness :
    (navReducer [0, 1] NavAction.pop).length + 1 = 2 ∧
    navReducer [(0 : Nat)] NavAction.pop = [0] := by
  exact ⟨((pop_behavior [0, 1]).1 (by decide)).1, (pop_behavior [(0 : Nat)]).2 rfl⟩

/-- Claim C7: the vertical window has size `min maxVisibleRows total`
and starts at 0 when the selection is inside the first window, else at
`selectedRow - windowSize + 1` clamped to `[0, total - windowSize]` (so
the selection is the last visible row); with the given concrete
examples. -/
theorem row_window_spec :
    (∀ total selectedRow maxVisibleRows : Nat,
      rowWindow total selectedRow maxVisibleRows =
        (let ws := min maxVisibleRows total
         let start := if selectedRow < ws then 0
           else max 0 (min (selectedRow - ws + 1) (total - ws))
         (start, start + ws))) ∧
    rowWindow 100 0 10 = (0, 10) ∧
    rowWindow 100 55 10 = (46, 56) ∧
    rowWindow 100 99 10 = (90, 100) := by
  refine ⟨?_, by decide, by decide, by decide⟩
  intro total selectedRow maxVisibleRows
  simp only [rowWindow]
  by_cases h : selectedRow ≥ min maxVisibleRows total
  · simp [h, Nat.not_lt.mpr h]
  · have h2 : selectedRow < min maxVisibleRows total := Nat.lt_of_not_le h
    simp [h, h2]

/-- Claim C1 (code bug shown on its failing input): two 500 responses
then a 200 give exactly 3 attempts with backoff sleeps 500 and 1000; a
plain 400 gives exactly 1 attempt and immediate failure; a network
error is retried until the retries are exhausted and the last error is
thrown; BUT a 400 whose body text contains a transport marker such as
`abort` is retried 4 times, contradicting the claimed (and commented)
`4xx is never retried` rule. -/
theorem retry_policy_eval :
    executeModel (fun k => if k < 2 then Outcome.http 500 ("Internal Server Error") ("")
        else Outcome.ok) =
      ExecResult.success 3 [500, 1000] ∧
    executeModel (fun _ => Outcome.http 400 ("Bad Request") ("")) =
      ExecResult.failure 1 [] ("Harper API error (400): Bad Request") ∧
    executeModel (fun _ => Outcome.thrown true ("fetch failed")) =
      ExecResult.failure 4 [500, 1000, 2000] ("fetch failed") ∧
    executeModel (fun _ => Outcome.http 400 ("The operation was aborted") ("")) =
      ExecResult.failure 4 [500, 1000, 2000]
        ("Harper API error (400): The operation was aborted") := by
  exact ⟨rfl, rfl, rfl, rfl⟩

theorem getCached_singleton_hit {α : Type u} (t0 t1 : Nat) (d1 : α)
    (h : t1 - t0 ≤ cacheTTL) :
    getCached [(("describe_all" : String), t0, d1)] ("describe_all") t1 =
      (some d1, [(("describe_all" : String), t0, d1)]) := by
  have hf : findCacheEntry [(("describe_all" : String), t0, d1)] ("describe_all") =
      some (t0, d1) := rfl
  simp only [getCached, hf]
  rw [if_neg (by omega : ¬ t1 - t0 > cacheTTL)]

theorem getCached_singleton_stale {α : Type u} (t0 t1 : Nat) (d1 : α)
    (h : cacheTTL < t1 - t0) :
    getCached [(("describe_all" : String), t0, d1)] ("describe_all") t1 =
      (none, ([] : List (String × Nat × α))) := by
  have hf : findCacheEntry [(("describe_all" : String), t0, d1)] ("describe_all") =
      some (t0, d1) := rfl
  have hd : deleteCacheKey [(("describe_all" : String), t0, d1)] ("describe_all") =
      ([] : List (String × Nat × α)) := rfl
  simp only [getCached, hf, hd]
  rw [if_pos (by omega : t1 - t0 > cacheTTL)]

/-- Claim C3: a `describeAll` against an empty cache issues a network
call and stores the result; a second call within the TTL window is
answered from the cache with no network call; after `clearCache`, or
once the entry is older than the TTL, a fresh network call is issued,
the stale entry being treated as absent and evicted lazily by the
read. -/
theorem describeAll_cache_roundtrip {α : Type u} (d1 d2 d3 : α) (t0 t1 : Nat) :
    describeAllModel ([] : List (String × Nat × α)) t0 d1 =
      (d1, [(("describe_all" : String), t0, d1)], true) ∧
    (t1 - t0 ≤ cacheTTL →
      describeAllModel [(("describe_all" : String), t0, d1)] t1 d2 =
        (d1, [(("describe_all" : String), t0, d1)], false)) ∧
    describeAllModel (clearCacheModel [(("describe_all" : String), t0, d1)]) t1 d2 =
      (d2, [(("describe_all" : String), t1, d2)], true) ∧
    (cacheTTL < t1 - t0 →
      getCached [(("describe_all" : String), t0, d1)] ("describe_all") t1 =
        (none, []) ∧
      describeAllModel [(("describe_all" : String), t0, d1)] t1 d3 =
        (d3, [(("describe_all" : String), t1, d3)], true)) := by
  refine ⟨rfl, ?_, rfl, ?_⟩
  · intro h
    simp only [describeAllModel, getCached_singleton_hit t0 t1 d1 h]
  · intro h
    refine ⟨getCached_singleton_stale t0 t1 d1 h, ?_⟩
    simp only [describeAllModel, getCached_singleton_stale t0 t1 d1 h]
    rfl

theorem describeAll_cache_roundtrip_witness :
    describeAllModel [(("describe_all" : String), 1000, (7 : Nat))] 61000 8 =
      (7, [(("describe_all" : String), 1000, 7)], false) ∧
    describeAllModel [(("describe_all" : String), 1000, (7 : Nat))] 61001 9 =
      (9, [(("describe_all" : String), 61001, 9)], true) := by
  refine ⟨(describeAll_cache_roundtrip 7 8 9 1000 61000).2.1 (by decide), ?_⟩
  exact ((describeAll_cache_roundtrip 7 8 9 1000 61001).2.2.2 (by decide)).2

/-- Claim C2 (amended: limit and offset are forwarded into the fallback
request exactly when the caller supplied them, rather than being
mandatory): with an empty condition list no `search_by_conditions`
request is built; the body is a `search_by_value` body whose
`search_value` is `*` and whose `search_attribute` is `hashAttribute`
if given, else the sort attribute if given, else `id`; the body carries
no `conditions` field. -/
theorem empty_conditions_fallback {C : Type u} (p : SearchByConditionsParams C)
    (h : p.conditions = []) :
    getField (searchByConditionsRequest C p) ("operation") =
      some (FieldVal.str ("search_by_value")) ∧
    getField (searchByConditionsRequest C p) ("search_value") =
      some (FieldVal.str ("*")) ∧
    getField (searchByConditionsRequest C p) ("search_attribute") =
      some (FieldVal.str
        (match p.hashAttribute with
         | some hsh => hsh
         | none =>
           match p.sort with
           | some s => s.attrName
           | none => "id")) ∧
    getField (searchByConditionsRequest C p) ("conditions") = none ∧
    getField (searchByConditionsRequest C p) ("limit") = p.limit.map FieldVal.num ∧
    getField (searchByConditionsRequest C p) ("offset") = p.offset.map FieldVal.num := by
  obtain ⟨db, tbl, conds, op, off, lim, sor, ga, hsh⟩ := p
  simp only at h
  subst h
  rcases hsh with _ | hv <;> rcases sor with _ | sv <;>
    rcases db with _ | dv <;> rcases ga with _ | gv <;>
    rcases lim with _ | lv <;> rcases off with _ | ov
  all_goals try by_cases hdv : dv = ""
  all_goals simp [searchByConditionsRequest, searchByValueBody, getField, *]

/-- Claim C2 counterexample to `limit and offset are mandatory in that
fallback path`: the fallback accepts parameters without limit and
offset and issues the wildcard request without those fields (and
without error), so neither is mandatory. -/
theorem empty_conditions_fallback_counterexample :
    searchByConditionsRequest Nat c2Params =
      [(("operation" : String), FieldVal.str ("search_by_value")),
       (("table" : String), FieldVal.str ("User")),
       (("search_attribute" : String), FieldVal.str ("id")),
       (("search_value" : String), FieldVal.str ("*"))] := by
  rfl

theorem empty_conditions_fallback_witness :
    getField (searchByConditionsRequest Nat c2ParamsW) ("search_value") =
      some (FieldVal.str ("*")) ∧
    getField (searchByConditionsRequest Nat c2ParamsW) ("limit") =
      some (FieldVal.num 10) := by
  refine ⟨(empty_conditions_fallback c2ParamsW rfl).2.1, ?_⟩
  have h := (empty_conditions_fallback c2ParamsW rfl).2.2.2.2.1
  simpa using h

/-- Claim C4 (amended: the cannot-reach message is produced exactly for
failures whose message contains `econnrefused` or `fetch failed`; other
network-class failures, e.g. timeouts, fall through to the generic
wrapped message): a failed connect resets the client to the pristine
pre-connect state (credentials cleared, not connected, cache empty),
and the re-thrown error is classified: authentication-failed for
messages containing `401` or `unauthorized`, cannot-reach for messages
containing `econnrefused` or `fetch failed`, generic wrap carrying the
original message otherwise. -/
theorem connect_failure_reset_and_classification {α : Type u}
    (prev : ClientState α) (url user pass e : String) (now : Nat) :
    (connectModel prev url user pass now (.error e)).1 = initialClientState α ∧
    (matchesAuthPattern e = true →
      (connectModel prev url user pass now (.error e)).2 =
        .error ("Authentication failed: invalid username or password")) ∧
    (matchesAuthPattern e = false → matchesUnreachablePattern e = true →
      (connectModel prev url user pass now (.error e)).2 =
        .error ("Cannot reach Harper instance at " ++ url ++ " — is it running?")) ∧
    (matchesAuthPattern e = false → matchesUnreachablePattern e = false →
      (connectModel prev url user pass now (.error e)).2 =
        .error ("Failed to connect to Harper: " ++ e)) := by
  refine ⟨rfl, ?_, ?_, ?_⟩
  · intro h
    have h' : (containsSubL ("401").data (e.data.map Char.toLower) ||
        containsSubL ("unauthorized").data (e.data.map Char.toLower)) = true := h
    simp only [connectModel, classifyConnectError]
    rw [if_pos h']
  · intro h1 h2
    have h1' : (containsSubL ("401").data (e.data.map Char.toLower) ||
        containsSubL ("unauthorized").data (e.data.map Char.toLower)) = false := h1
    have h2' : (containsSubL ("econnrefused").data (e.data.map Char.toLower) ||
        containsSubL ("fetch failed").data (e.data.map Char.toLower)) = true := h2
    simp only [connectModel, classifyConnectError]
    rw [if_neg (by simp [h1']), if_pos h2']
  · intro h1 h2
    have h1' : (containsSubL ("401").data (e.data.map Char.toLower) ||
        containsSubL ("unauthorized").data (e.data.map Char.toLower)) = false := h1
    have h2' : (containsSubL ("econnrefused").data (e.data.map Char.toLower) ||
        containsSubL ("fetch failed").data (e.data.map Char.toLower)) = false := h2
    simp only [connectModel, classifyConnectError]
    rw [if_neg (by simp [h1']), if_neg (by simp [h2'])]

/-- Claim C4 counterexample: `connect ETIMEDOUT` is a network-class
failure by the code itself (`isNetworkError` is true for it), yet the
connect classifier does not produce the cannot-reach message for it —
it falls through to the generic wrap. -/
theorem connect_network_classification_counterexample :
    isNetworkError false ("connect ETIMEDOUT") = true ∧
    (connectModel (initialClientState Nat) ("http://localhost:9925") ("admin") ("pw") 0
        (.error ("connect ETIMEDOUT"))).2 =
      .error ("Failed to connect to Harper: connect ETIMEDOUT") := by
  exact ⟨rfl, rfl⟩

theorem connect_failure_witness :
    (connectModel (initialClientState Nat) ("http://localhost:9925/") ("admin") ("pw") 0
        (.error ("Harper API error (401): Unauthorized"))).2 =
      .error ("Authentication failed: invalid username or password") ∧
    (connectModel (initialClientState Nat) ("http://h") ("u") ("p") 0
        (.error ("fetch failed"))).2 =
      .error ("Cannot reach Harper instance at http://h — is it running?") := by
  refine ⟨(connect_failure_reset_and_classification _ _ _ _ _ _).2.1 (by decide), ?_⟩
  exact (connect_failure_reset_and_classification _ _ _ _ _ _).2.2.1
    (by decide) (by decide)

theorem packCols_false_spec (ws : List Int) : ∀ b : Int, ∃ m, m ≤ ws.length ∧
    packCols ws b false = ws.take m ∧
    (m = 0 ∨ (ws.take m).sum + 2 * (m : Int) ≤ b) ∧
    (m < ws.length → b < (ws.take (m + 1)).sum + 2 * ((m : Int) + 1)) := by
  induction ws with
  | nil =>
    intro b
    exact ⟨0, by simp, rfl, Or.inl rfl, by simp⟩
  | cons w rest ih =>
    intro b
    by_cases hb : b < w + 2
    · refine ⟨0, by simp, ?_, Or.inl rfl, ?_⟩
      · simp [packCols, hb]
      · intro _
        simpa using hb
    · push_neg at hb
      obtain ⟨m, hm, heq, hcost, hnext⟩ := ih (b - (w + 2))
      refine ⟨m + 1, by simpa using Nat.succ_le_succ hm, ?_, ?_, ?_⟩
      · simp only [packCols]
        rw [if_neg (by simpa using not_lt.mpr hb)]
        simp only [Bool.false_eq_true, if_false, if_true, heq, List.take_succ_cons]
      · right
        have hsum : ((w :: rest).take (m + 1)).sum = w + (rest.take m).sum := by
          simp [List.take_succ_cons]
        rw [hsum]
        rcases hcost with h0 | hc
        · subst h0
          simp only [List.take_zero, List.sum_nil]
          push_cast
          omega
        · push_cast
          omega
      · intro hlt
        have h2 := hnext (by simpa using Nat.lt_of_succ_lt_succ hlt)
        have hsum : ((w :: rest).take (m + 2)).sum = w + (rest.take (m + 1)).sum := by
          simp [List.take_succ_cons]
        have : (m + 1) + 1 = m + 2 := rfl
        rw [this, hsum]
        push_cast
        push_cast at h2
        omega

theorem packCols_true_spec (ws : List Int) (b : Int) (hne : ws ≠ []) :
    (b < prefixCost ws 1 → packCols ws b true = [max 8 b]) ∧
    (prefixCost ws 1 ≤ b → ∃ m, 1 ≤ m ∧ m ≤ ws.length ∧
      packCols ws b true = ws.take m ∧ prefixCost ws m ≤ b ∧
      (m < ws.length → b < prefixCost ws (m + 1))) := by
  match ws, hne with
  | w :: rest, _ =>
    have hpc1 : prefixCost (w :: rest) 1 = w := by
      simp [prefixCost]
    constructor
    · intro h
      rw [hpc1] at h
      simp [packCols, h]
    · intro h
      rw [hpc1] at h
      obtain ⟨m, hm, heq, hcost, hnext⟩ := packCols_false_spec rest (b - w)
      have hpcm : prefixCost (w :: rest) (m + 1) =
          w + (rest.take m).sum + 2 * (m : Int) := by
        simp only [prefixCost, List.take_succ_cons, List.sum_cons]
        push_cast
        ring
      refine ⟨m + 1, by omega, by simpa using Nat.succ_le_succ hm, ?_, ?_, ?_⟩
      · simp only [packCols]
        rw [if_neg (by simpa using not_lt.mpr h)]
        simp only [Bool.false_eq_true, if_false, if_true, heq, List.take_succ_cons]
      · rw [hpcm]
        rcases hcost with h0 | hc
        · subst h0
          simp only [List.take_zero, List.sum_nil]
          push_cast
          omega
        · omega
      · intro hlt
        have h2 := hnext (by simpa using Nat.lt_of_succ_lt_succ hlt)
        have hpcm2 : prefixCost (w :: rest) (m + 1 + 1) =
            w + (rest.take (m + 1)).sum + 2 * ((m : Int) + 1) := by
          simp only [prefixCost, List.take_succ_cons, List.sum_cons]
          push_cast
          ring
        rw [hpcm2]
        omega

/-- Claim C8: the forward packing consumes the width of the first
visible column and width + 2 for each subsequent one, stops at the
first column that no longer fits, and clips the first column to
`max 8 budget` when even it does not fit; with natural widths
`[5, 5, 5]`, gap 2 and an 18-wide terminal (budget 14 after the 4-wide
row marker) the window starting at column 0 shows exactly 2 columns
with hiddenRight = 1. -/
theorem column_packing_spec :
    (∀ (ws : List Int) (b : Int), ws ≠ [] →
      (b < prefixCost ws 1 → packCols ws b true = [max 8 b]) ∧
      (prefixCost ws 1 ≤ b → ∃ m, 1 ≤ m ∧ m ≤ ws.length ∧
        packCols ws b true = ws.take m ∧ prefixCost ws m ≤ b ∧
        (m < ws.length → b < prefixCost ws (m + 1)))) ∧
    columnWindow [5, 5, 5] 0 18 = ([5, 5], 0, 1) := by
  exact ⟨fun ws b hne => packCols_true_spec ws b hne, by decide⟩

theorem column_packing_spec_witness :
    packCols [(40 : Int)] 5 true = [max (8 : Int) 5] := by
  exact (column_packing_spec.1 [(40 : Int)] 5 (by decide)).1 (by decide)

theorem addEdge_snd_mem {st : List (List Char) × List RelationshipInfo}
    {key : List Char} {e x : RelationshipInfo} (h : x ∈ (addEdge st key e).2) :
    x ∈ st.2 ∨ x = e := by
  unfold addEdge at h
  split at h
  · exact Or.inl h
  · rcases List.mem_append.mp h with h1 | h2
    · exact Or.inl h1
    · exact Or.inr (List.mem_singleton.mp h2)

theorem addEdge_snd_mono {st : List (List Char) × List RelationshipInfo}
    {key : List Char} {e x : RelationshipInfo} (h : x ∈ st.2) :
    x ∈ (addEdge st key e).2 := by
  unfold addEdge
  split
  · exact h
  · exact List.mem_append.mpr (Or.inl h)

theorem addEdge_fst_mem {st : List (List Char) × List RelationshipInfo}
    {key k : List Char} {e : RelationshipInfo} (h : k ∈ (addEdge st key e).1) :
    k = key ∨ k ∈ st.1 := by
  unfold addEdge at h
  split at h
  · exact Or.inr h
  · rcases List.mem_cons.mp h with h1 | h2
    · exact Or.inl h1
    · exact Or.inr h2

theorem mapSetL_mem {m : List (List Char × List Char)} {k v : List Char}
    {kv : List Char × List Char} (h : kv ∈ mapSetL m k v) :
    kv ∈ m ∨ kv = (k, v) := by
  unfold mapSetL at h
  split at h
  · obtain ⟨p, hp, heq⟩ := List.mem_map.mp h
    by_cases hpk : p.1 = k
    · rw [if_pos hpk] at heq
      right
      rw [← heq, hpk]
    · rw [if_neg hpk] at heq
      exact Or.inl (heq ▸ hp)
  · rcases List.mem_append.mp h with h1 | h2
    · exact Or.inl h1
    · exact Or.inr (List.mem_singleton.mp h2)

theorem buildLowerMap_mem (names : List (List Char)) :
    ∀ kv ∈ buildLowerMap names, kv.1 = toLowerL kv.2 ∧ kv.2 ∈ names := by
  suffices h : ∀ (ns : List (List Char)) (m0 : List (List Char × List Char)),
      (∀ kv ∈ m0, kv.1 = toLowerL kv.2 ∧ kv.2 ∈ names) →
      (∀ x ∈ ns, x ∈ names) →
      ∀ kv ∈ ns.foldl (fun m n => mapSetL m (toLowerL n) n) m0,
        kv.1 = toLowerL kv.2 ∧ kv.2 ∈ names by
    exact h names [] (by simp) (fun x hx => hx)
  intro ns
  induction ns with
  | nil => intro m0 h0 _ kv hkv; exact h0 kv hkv
  | cons x rest ih =>
    intro m0 h0 hsub kv hkv
    simp only [List.foldl_cons] at hkv
    refine ih (mapSetL m0 (toLowerL x) x) ?_ (fun y hy => hsub y (List.mem_cons_of_mem x hy)) kv hkv
    intro p hp
    rcases mapSetL_mem hp with h1 | h2
    · exact h0 p h1
    · rw [h2]
      exact ⟨rfl, hsub x (List.mem_cons_self x rest)⟩

theorem mapGetL_mem {m : List (List Char × List Char)} {k v : List Char}
    (h : mapGetL m k = some v) : (k, v) ∈ m := by
  unfold mapGetL at h
  rcases hf : m.find? (fun p => decide (p.1 = k)) with _ | p
  · rw [hf] at h
    simp at h
  · rw [hf] at h
    simp only [Option.map_some', Option.some.injEq] at h
    have hmem := List.mem_of_find?_eq_some hf
    have hp0 : decide (p.1 = k) = true := by
      have := List.find?_some hf
      simpa using this
    have hp : p.1 = k := of_decide_eq_true hp0
    have : (k, v) = p := by
      rw [← hp, ← h]
    rw [this]
    exact hmem

theorem mapGetL_buildLower {names : List (List Char)} {k v : List Char}
    (h : mapGetL (buildLowerMap names) k = some v) :
    k = toLowerL v ∧ v ∈ names := by
  have := buildLowerMap_mem names (k, v) (mapGetL_mem h)
  exact this

theorem toLowerL_length (l : List Char) : (toLowerL l).length = l.length := by
  simp [toLowerL]

theorem stripIdSuffix_eq {n b : List Char} (h : stripIdSuffix n = some b) :
    b ≠ [] ∧ (n = b ++ ['I', 'd'] ∨ n = b ++ ['_', 'i', 'd']) := by
  unfold stripIdSuffix at h
  split_ifs at h with h1 h2
  · obtain ⟨hd, hl⟩ := h1
    simp only [Option.some.injEq] at h
    have hblen : b.length = n.length - 2 := by
      rw [← h]
      simp [List.length_take]
    constructor
    · intro hb
      rw [hb] at hblen
      simp at hblen
      omega
    · left
      conv_lhs => rw [← List.take_append_drop (n.length - 2) n]
      rw [hd, h]
  · obtain ⟨hd, hl⟩ := h2
    simp only [Option.some.injEq] at h
    have hblen : b.length = n.length - 3 := by
      rw [← h]
      simp [List.length_take]
    constructor
    · intro hb
      rw [hb] at hblen
      simp at hblen
      omega
    · right
      conv_lhs => rw [← List.take_append_drop (n.length - 3) n]
      rw [hd, h]

theorem fwdKey_ne_revKey (n t o m : List Char) : fwdKey n t ≠ revKey o m := by
  intro h
  unfold fwdKey revKey at h
  simp [List.cons_append] at h

theorem revKey_inj {o1 n1 o2 n2 b1 b2 B : List Char}
    (hk : revKey o1 n1 = revKey o2 n2)
    (h1 : stripIdSuffix n1 = some b1) (h2 : stripIdSuffix n2 = some b2)
    (l1 : toLowerL b1 = toLowerL B) (l2 : toLowerL b2 = toLowerL B) :
    o1 = o2 ∧ n1 = n2 := by
  have hb : b1.length = b2.length := by
    have e1 := congrArg List.length l1
    have e2 := congrArg List.length l2
    rw [toLowerL_length, toLowerL_length] at e1 e2
    omega
  obtain ⟨hne1, hsfx1⟩ := stripIdSuffix_eq h1
  obtain ⟨hne2, hsfx2⟩ := stripIdSuffix_eq h2
  have hk' : o1 ++ ':' :: n1 = o2 ++ ':' :: n2 := by
    unfold revKey at hk
    simpa [List.append_assoc] using hk
  have hlens := congrArg List.length hk'
  simp only [List.length_append, List.length_cons] at hlens
  rcases hsfx1 with e1 | e1 <;> rcases hsfx2 with e2 | e2
  · have hn : n1.length = n2.length := by
      rw [e1, e2]
      simp [hb]
    obtain ⟨ho, hn2⟩ := List.append_inj hk' (by omega)
    exact ⟨ho, by simpa using hn2⟩
  · exfalso
    have hrev := congrArg List.reverse hk'
    rw [e1, e2] at hrev
    simp [List.reverse_append] at hrev
  · exfalso
    have hrev := congrArg List.reverse hk'
    rw [e1, e2] at hrev
    simp [List.reverse_append] at hrev
  · have hn : n1.length = n2.length := by
      rw [e1, e2]
      simp [hb]
    obtain ⟨ho, hn2⟩ := List.append_inj hk' (by omega)
    exact ⟨ho, by simpa using hn2⟩

theorem fwdPass_mem {A : List Char} {tmap : List (List Char × List Char)}
    (attrs : List RAttr) :
    ∀ (st : List (List Char) × List RelationshipInfo) (x : RelationshipInfo),
    x ∈ (fwdPass A tmap attrs st).2 → x ∈ st.2 ∨
    (∃ a ∈ attrs, ∃ t, a.relationship = some t ∧ x = fwdEdge a.attrName t .api) ∨
    (∃ a ∈ attrs, a.relationship = none ∧ ∃ base mt,
      stripIdSuffix a.attrName = some base ∧
      mapGetL tmap (toLowerL base) = some mt ∧ mt ≠ A ∧
      x = fwdEdge a.attrName mt .inferred) := by
  induction attrs with
  | nil => intro st x h; exact Or.inl h
  | cons attr rest ih =>
    intro st x h
    have lift :
        x ∈ st.2 ∨
        (∃ a ∈ rest, ∃ t, a.relationship = some t ∧ x = fwdEdge a.attrName t .api) ∨
        (∃ a ∈ rest, a.relationship = none ∧ ∃ base mt,
          stripIdSuffix a.attrName = some base ∧
          mapGetL tmap (toLowerL base) = some mt ∧ mt ≠ A ∧
          x = fwdEdge a.attrName mt .inferred) →
        x ∈ st.2 ∨
        (∃ a ∈ attr :: rest, ∃ t, a.relationship = some t ∧ x = fwdEdge a.attrName t .api) ∨
        (∃ a ∈ attr :: rest, a.relationship = none ∧ ∃ base mt,
          stripIdSuffix a.attrName = some base ∧
          mapGetL tmap (toLowerL base) = some mt ∧ mt ≠ A ∧
          x = fwdEdge a.attrName mt .inferred) := by
      rintro (h1 | ⟨a, ha, rest1⟩ | ⟨a, ha, rest2⟩)
      · exact Or.inl h1
      · exact Or.inr (Or.inl ⟨a, List.mem_cons_of_mem attr ha, rest1⟩)
      · exact Or.inr (Or.inr ⟨a, List.mem_cons_of_mem attr ha, rest2⟩)
    rcases hrel : attr.relationship with _ | t
    · rcases hstrip : stripIdSuffix attr.attrName with _ | base
      · rw [show fwdPass A tmap (attr :: rest) st = fwdPass A tmap rest st by
          simp only [fwdPass, hrel, hstrip]] at h
        exact lift (ih st x h)
      · rcases hget : mapGetL tmap (toLowerL base) with _ | mt
        · rw [show fwdPass A tmap (attr :: rest) st = fwdPass A tmap rest st by
            simp only [fwdPass, hrel, hstrip, hget]] at h
          exact lift (ih st x h)
        · by_cases hmtA : mt ≠ A
          · rw [show fwdPass A tmap (attr :: rest) st =
                fwdPass A tmap rest
                  (addEdge st (fwdKey attr.attrName mt) (fwdEdge attr.attrName mt .inferred)) by
              simp only [fwdPass, hrel, hstrip, hget, if_pos hmtA]] at h
            rcases ih _ x h with h1 | h2 | h3
            · rcases addEdge_snd_mem h1 with h4 | h5
              · exact Or.inl h4
              · exact Or.inr (Or.inr ⟨attr, List.mem_cons_self attr rest, hrel,
                  base, mt, hstrip, hget, hmtA, h5⟩)
            · exact lift (Or.inr (Or.inl h2))
            · exact lift (Or.inr (Or.inr h3))
          · rw [show fwdPass A tmap (attr :: rest) st = fwdPass A tmap rest st by
              simp only [fwdPass, hrel, hstrip, hget, if_neg hmtA]] at h
            exact lift (ih st x h)
    · rw [show fwdPass A tmap (attr :: rest) st =
          fwdPass A tmap rest
            (addEdge st (fwdKey attr.attrName t) (fwdEdge attr.attrName t .api)) by
        simp only [fwdPass, hrel]] at h
      rcases ih _ x h with h1 | h2 | h3
      · rcases addEdge_snd_mem h1 with h4 | h5
        · exact Or.inl h4
        · exact Or.inr (Or.inl ⟨attr, List.mem_cons_self attr rest, t, hrel, h5⟩)
      · exact lift (Or.inr (Or.inl h2))
      · exact lift (Or.inr (Or.inr h3))

theorem fwdPass_keys {A : List Char} {tmap : List (List Char × List Char)}
    (attrs : List RAttr) :
    ∀ (st : List (List Char) × List RelationshipInfo),
    (∀ k ∈ st.1, ∃ n t, k = fwdKey n t) →
    ∀ k ∈ (fwdPass A tmap attrs st).1, ∃ n t, k = fwdKey n t := by
  induction attrs with
  | nil => intro st h k hk; exact h k hk
  | cons attr rest ih =>
    intro st hst k hk
    have hadd : ∀ (key : List Char) (nn tt : List Char) (e : RelationshipInfo),
        key = fwdKey nn tt →
        ∀ kk ∈ (addEdge st key e).1, ∃ n t, kk = fwdKey n t := by
      intro key nn tt e hkey kk hkk
      rcases addEdge_fst_mem hkk with h1 | h2
      · exact ⟨nn, tt, h1.trans hkey⟩
      · exact hst kk h2
    rcases hrel : attr.relationship with _ | t
    · rcases hstrip : stripIdSuffix attr.attrName with _ | base
      · rw [show fwdPass A tmap (attr :: rest) st = fwdPass A tmap rest st by
          simp only [fwdPass, hrel, hstrip]] at hk
        exact ih st hst k hk
      · rcases hget : mapGetL tmap (toLowerL base) with _ | mt
        · rw [show fwdPass A tmap (attr :: rest) st = fwdPass A tmap rest st by
            simp only [fwdPass, hrel, hstrip, hget]] at hk
          exact ih st hst k hk
        · by_cases hmtA : mt ≠ A
          · rw [show fwdPass A tmap (attr :: rest) st =
                fwdPass A tmap rest
                  (addEdge st (fwdKey attr.attrName mt) (fwdEdge attr.attrName mt .inferred)) by
              simp only [fwdPass, hrel, hstrip, hget, if_pos hmtA]] at hk
            exact ih _ (hadd _ attr.attrName mt _ rfl) k hk
          · rw [show fwdPass A tmap (attr :: rest) st = fwdPass A tmap rest st by
              simp only [fwdPass, hrel, hstrip, hget, if_neg hmtA]] at hk
            exact ih st hst k hk
    · rw [show fwdPass A tmap (attr :: rest) st =
          fwdPass A tmap rest
            (addEdge st (fwdKey attr.attrName t) (fwdEdge attr.attrName t .api)) by
        simp only [fwdPass, hrel]] at hk
      exact ih _ (hadd _ attr.attrName t _ rfl) k hk

theorem revAttrs_mem {B o : List Char} (attrs : List RAttr) :
    ∀ (st : List (List Char) × List RelationshipInfo) (x : RelationshipInfo),
    x ∈ (revAttrs B o attrs st).2 → x ∈ st.2 ∨
    ∃ a ∈ attrs, ∃ base, stripIdSuffix a.attrName = some base ∧
      toLowerL base = toLowerL B ∧ x = revEdge a.attrName o := by
  induction attrs with
  | nil => intro st x h; exact Or.inl h
  | cons attr rest ih =>
    intro st x h
    have lift : x ∈ st.2 ∨
        (∃ a ∈ rest, ∃ base, stripIdSuffix a.attrName = some base ∧
          toLowerL base = toLowerL B ∧ x = revEdge a.attrName o) →
        x ∈ st.2 ∨
        ∃ a ∈ attr :: rest, ∃ base, stripIdSuffix a.attrName = some base ∧
          toLowerL base = toLowerL B ∧ x = revEdge a.attrName o := by
      rintro (h1 | ⟨a, ha, rest1⟩)
      · exact Or.inl h1
      · exact Or.inr ⟨a, List.mem_cons_of_mem attr ha, rest1⟩
    rcases hstrip : stripIdSuffix attr.attrName with _ | base
    · rw [show revAttrs B o (attr :: rest) st = revAttrs B o rest st by
        simp only [revAttrs, hstrip]] at h
      exact lift (ih st x h)
    · by_cases hlow : toLowerL base = toLowerL B
      · rw [show revAttrs B o (attr :: rest) st =
            revAttrs B o rest
              (addEdge st (revKey o attr.attrName) (revEdge attr.attrName o)) by
          simp only [revAttrs, hstrip, if_pos hlow]] at h
        rcases ih _ x h with h1 | h2
        · rcases addEdge_snd_mem h1 with h3 | h4
          · exact Or.inl h3
          · exact Or.inr ⟨attr, List.mem_cons_self attr rest, base, hstrip, hlow, h4⟩
        · exact lift (Or.inr h2)
      · rw [show revAttrs B o (attr :: rest) st = revAttrs B o rest st by
          simp only [revAttrs, hstrip, if_neg hlow]] at h
        exact lift (ih st x h)

theorem revAttrs_mono {B o : List Char} (attrs : List RAttr) :
    ∀ (st : List (List Char) × List RelationshipInfo) (x : RelationshipInfo),
    x ∈ st.2 → x ∈ (revAttrs B o attrs st).2 := by
  induction attrs with
  | nil => intro st x h; exact h
  | cons attr rest ih =>
    intro st x h
    rcases hstrip : stripIdSuffix attr.attrName with _ | base
    · rw [show revAttrs B o (attr :: rest) st = revAttrs B o rest st by
        simp only [revAttrs, hstrip]]
      exact ih st x h
    · by_cases hlow : toLowerL base = toLowerL B
      · rw [show revAttrs B o (attr :: rest) st =
            revAttrs B o rest
              (addEdge st (revKey o attr.attrName) (revEdge attr.attrName o)) by
          simp only [revAttrs, hstrip, if_pos hlow]]
        exact ih _ x (addEdge_snd_mono h)
      · rw [show revAttrs B o (attr :: rest) st = revAttrs B o rest st by
          simp only [revAttrs, hstrip, if_neg hlow]]
        exact ih st x h

theorem revPass_mono {B : List Char} (tabs : List (List Char × RTable)) :
    ∀ (st : List (List Char) × List RelationshipInfo) (x : RelationshipInfo),
    x ∈ st.2 → x ∈ (revPass B tabs st).2 := by
  induction tabs with
  | nil => intro st x h; exact h
  | cons p rest ih =>
    intro st x h
    rcases p with ⟨pn, psch⟩
    by_cases hpn : pn = B
    · rw [show revPass B ((pn, psch) :: rest) st = revPass B rest st by
        simp only [revPass, if_pos hpn]]
      exact ih st x h
    · rw [show revPass B ((pn, psch) :: rest) st =
          revPass B rest (revAttrs B pn psch.attributes st) by
        simp only [revPass, if_neg hpn]]
      exact ih _ x (revAttrs_mono psch.attributes st x h)

theorem revPass_mem {B : List Char} (tabs : List (List Char × RTable)) :
    ∀ (st : List (List Char) × List RelationshipInfo) (x : RelationshipInfo),
    x ∈ (revPass B tabs st).2 → x ∈ st.2 ∨
    ∃ o sch, (o, sch) ∈ tabs ∧ o ≠ B ∧ ∃ a ∈ sch.attributes, ∃ base,
      stripIdSuffix a.attrName = some base ∧ toLowerL base = toLowerL B ∧
      x = revEdge a.attrName o := by
  induction tabs with
  | nil => intro st x h; exact Or.inl h
  | cons p rest ih =>
    intro st x h
    rcases p with ⟨pn, psch⟩
    have lift : x ∈ st.2 ∨
        (∃ o sch, (o, sch) ∈ rest ∧ o ≠ B ∧ ∃ a ∈ sch.attributes, ∃ base,
          stripIdSuffix a.attrName = some base ∧ toLowerL base = toLowerL B ∧
          x = revEdge a.attrName o) →
        x ∈ st.2 ∨
        ∃ o sch, (o, sch) ∈ (pn, psch) :: rest ∧ o ≠ B ∧ ∃ a ∈ sch.attributes, ∃ base,
          stripIdSuffix a.attrName = some base ∧ toLowerL base = toLowerL B ∧
          x = revEdge a.attrName o := by
      rintro (h1 | ⟨o, sch, ho, rest1⟩)
      · exact Or.inl h1
      · exact Or.inr ⟨o, sch, List.mem_cons_of_mem _ ho, rest1⟩
    by_cases hpn : pn = B
    · rw [show revPass B ((pn, psch) :: rest) st = revPass B rest st by
        simp only [revPass, if_pos hpn]] at h
      exact lift (ih st x h)
    · rw [show revPass B ((pn, psch) :: rest) st =
          revPass B rest (revAttrs B pn psch.attributes st) by
        simp only [revPass, if_neg hpn]] at h
      rcases ih _ x h with h1 | h2
      · rcases revAttrs_mem psch.attributes st x h1 with h3 | ⟨a, ha, base, h4, h5, h6⟩
        · exact Or.inl h3
        · exact Or.inr ⟨pn, psch, List.mem_cons_self _ rest, hpn, a, ha, base, h4, h5, h6⟩
      · exact lift (Or.inr h2)

theorem revInv_addRev {B : List Char} {st : List (List Char) × List RelationshipInfo}
    {o n base : List Char} (hInv : RevInv B st)
    (hstrip : stripIdSuffix n = some base) (hlow : toLowerL base = toLowerL B) :
    RevInv B (addEdge st (revKey o n) (revEdge n o)) := by
  unfold addEdge
  split
  · exact hInv
  · intro k hk
    rcases List.mem_cons.mp hk with h1 | h2
    · exact Or.inr ⟨o, n, base, h1, List.mem_append.mpr (Or.inr (List.mem_singleton.mpr rfl)),
        hstrip, hlow⟩
    · rcases hInv k h2 with hf | ⟨o2, m2, base2, hk2, hmem2, hs2, hl2⟩
      · exact Or.inl hf
      · exact Or.inr ⟨o2, m2, base2, hk2, List.mem_append.mpr (Or.inl hmem2), hs2, hl2⟩

theorem revAttrs_inv {B o : List Char} (attrs : List RAttr) :
    ∀ (st : List (List Char) × List RelationshipInfo), RevInv B st →
    RevInv B (revAttrs B o attrs st) := by
  induction attrs with
  | nil => intro st h; exact h
  | cons attr rest ih =>
    intro st hInv
    rcases hstrip : stripIdSuffix attr.attrName with _ | base
    · rw [show revAttrs B o (attr :: rest) st = revAttrs B o rest st by
        simp only [revAttrs, hstrip]]
      exact ih st hInv
    · by_cases hlow : toLowerL base = toLowerL B
      · rw [show revAttrs B o (attr :: rest) st =
            revAttrs B o rest
              (addEdge st (revKey o attr.attrName) (revEdge attr.attrName o)) by
          simp only [revAttrs, hstrip, if_pos hlow]]
        exact ih _ (revInv_addRev hInv hstrip hlow)
      · rw [show revAttrs B o (attr :: rest) st = revAttrs B o rest st by
          simp only [revAttrs, hstrip, if_neg hlow]]
        exact ih st hInv

theorem revAttrs_emits {B o : List Char} (attrs : List RAttr) (a : RAttr)
    {base : List Char} (hstrip : stripIdSuffix a.attrName = some base)
    (hlow : toLowerL base = toLowerL B) :
    ∀ (st : List (List Char) × List RelationshipInfo), a ∈ attrs → RevInv B st →
    revEdge a.attrName o ∈ (revAttrs B o attrs st).2 := by
  induction attrs with
  | nil => intro st ha _; cases ha
  | cons a0 rest ih =>
    intro st ha hInv
    rcases List.mem_cons.mp ha with rfl | hmem
    · rw [show revAttrs B o (a :: rest) st =
          revAttrs B o rest
            (addEdge st (revKey o a.attrName) (revEdge a.attrName o)) by
        simp only [revAttrs, hstrip, if_pos hlow]]
      by_cases hseen : revKey o a.attrName ∈ st.1
      · have heq : addEdge st (revKey o a.attrName) (revEdge a.attrName o) = st := by
          unfold addEdge
          rw [if_pos hseen]
        rw [heq]
        rcases hInv _ hseen with ⟨n2, t2, hk2⟩ | ⟨o2, m2, base2, hk2, hmem2, hs2, hl2⟩
        · exact absurd hk2.symm (fwdKey_ne_revKey n2 t2 o a.attrName)
        · obtain ⟨ho2, hn2⟩ := revKey_inj hk2 hstrip hs2 hlow hl2
          rw [ho2, hn2]
          exact revAttrs_mono rest st _ hmem2
      · have hmem : revEdge a.attrName o ∈
            (addEdge st (revKey o a.attrName) (revEdge a.attrName o)).2 := by
          unfold addEdge
          rw [if_neg hseen]
          exact List.mem_append.mpr (Or.inr (List.mem_singleton.mpr rfl))
        exact revAttrs_mono rest _ _ hmem
    · rcases hstrip0 : stripIdSuffix a0.attrName with _ | base0
      · rw [show revAttrs B o (a0 :: rest) st = revAttrs B o rest st by
          simp only [revAttrs, hstrip0]]
        exact ih st hmem hInv
      · by_cases hlow0 : toLowerL base0 = toLowerL B
        · rw [show revAttrs B o (a0 :: rest) st =
              revAttrs B o rest
                (addEdge st (revKey o a0.attrName) (revEdge a0.attrName o)) by
            simp only [revAttrs, hstrip0, if_pos hlow0]]
          exact ih _ hmem (revInv_addRev hInv hstrip0 hlow0)
        · rw [show revAttrs B o (a0 :: rest) st = revAttrs B o rest st by
            simp only [revAttrs, hstrip0, if_neg hlow0]]
          exact ih st hmem hInv

theorem revPass_emits {B : List Char} (tabs : List (List Char × RTable))
    (o : List Char) (sch : RTable) (a : RAttr) {base : List Char}
    (hmem : (o, sch) ∈ tabs) (hne : o ≠ B) (ha : a ∈ sch.attributes)
    (hstrip : stripIdSuffix a.attrName = some base)
    (hlow : toLowerL base = toLowerL B) :
    ∀ (st : List (List Char) × List RelationshipInfo), RevInv B st →
    revEdge a.attrName o ∈ (revPass B tabs st).2 := by
  induction tabs with
  | nil => cases hmem
  | cons p rest ih =>
    intro st hInv
    rcases p with ⟨pn, psch⟩
    rcases List.mem_cons.mp hmem with heq | hmem2
    · have h1 : o = pn := congrArg Prod.fst heq
      have h2 : sch = psch := congrArg Prod.snd heq
      subst h1
      subst h2
      rw [show revPass B ((o, sch) :: rest) st =
          revPass B rest (revAttrs B o sch.attributes st) by
        simp only [revPass, if_neg hne]]
      exact revPass_mono rest _ _ (revAttrs_emits sch.attributes a hstrip hlow st ha hInv)
    · by_cases hpn : pn = B
      · rw [show revPass B ((pn, psch) :: rest) st = revPass B rest st by
          simp only [revPass, if_pos hpn]]
        exact ih hmem2 st hInv
      · rw [show revPass B ((pn, psch) :: rest) st =
            revPass B rest (revAttrs B pn psch.attributes st) by
          simp only [revPass, if_neg hpn]]
        exact ih hmem2 _ (revAttrs_inv psch.attributes st hInv)

theorem fwdPass_revInv (B A : List Char) (tmap : List (List Char × List Char))
    (attrs : List RAttr) :
    RevInv B (fwdPass A tmap attrs (([] : List (List Char)), ([] : List RelationshipInfo))) := by
  intro k hk
  refine Or.inl (fwdPass_keys attrs _ ?_ k hk)
  intro k2 hk2
  simp at hk2

/-- Claim C10: if inferring relationships for table A over the universe
yields an inferred forward edge to B via an attribute n (of the `bId`
naming convention), then inferring relationships for B over the same
universe yields a reverse edge whose target is A and whose recorded
back-reference attribute is n. -/
theorem reverse_symmetry (U : List (List Char × RTable)) (A B : List Char)
    (schemaA schemaB : RTable) (hA : (A, schemaA) ∈ U) (_hB : (B, schemaB) ∈ U)
    (hAB : A ≠ B) (n : List Char)
    (hfwd : fwdEdge n B RSource.inferred ∈ inferRelationships A schemaA U) :
    revEdge n A ∈ inferRelationships B schemaB U := by
  simp only [inferRelationships] at hfwd ⊢
  rcases revPass_mem U _ _ hfwd with hf | ⟨o, sch, _, _, a, ha, base, h1, h2, hx⟩
  · rcases fwdPass_mem schemaA.attributes _ _ hf with hinit |
      ⟨a, ha, t, hrel, hx⟩ | ⟨a, ha, hrel, base, mt, hstrip, hget, hmtA, hx⟩
    · simp at hinit
    · have : RSource.inferred = RSource.api := congrArg RelationshipInfo.source hx
      simp at this
    · have hn : n = a.attrName := congrArg RelationshipInfo.attrName hx
      have hB2 : B = mt := congrArg RelationshipInfo.targetTable hx
      obtain ⟨hkeq, hmem⟩ := mapGetL_buildLower hget
      rw [hn]
      exact revPass_emits U A schemaA a hA hAB ha hstrip
        (by rw [hB2]; exact hkeq) _ (fwdPass_revInv B B (buildLowerMap (U.map (fun p => p.1))) schemaB.attributes)
  · have : RDirection.forward = RDirection.reverse := congrArg RelationshipInfo.direction hx
    simp at this

theorem reverse_symmetry_witness :
    revEdge (("userId").data) (("Order").data) ∈
      inferRelationships (("User").data) (tableOf [])
        [((("Order").data), tableOf [attrOf ("userId")]),
         ((("User").data), tableOf [])] := by
  exact reverse_symmetry
    [((("Order").data), tableOf [attrOf ("userId")]), ((("User").data), tableOf [])]
    (("Order").data) (("User").data) (tableOf [attrOf ("userId")]) (tableOf [])
    (by decide) (by decide) (by decide) (("userId").data) (by decide)

/-- Claim C9 (amended: a table with no attributes yields no forward
edges, though reverse edges may still point at it; and with an empty
universe of other tables only API-metadata edges can appear):
convention forward matching fires exactly when stripping `Id`
(length > 2) or `_id` (length > 3) leaves a non-empty base whose
lowercase form equals the lowercase form of another known table name,
self-matches excluded; bare `Id` strips to nothing and yields no edge;
`userId` matches table `User`; `user_id` matches table `user`. -/
theorem forward_matching_rules :
    (∀ (A : List Char) (sch : RTable) (U : List (List Char × RTable))
        (e : RelationshipInfo),
      e ∈ inferRelationships A sch U → e.direction = RDirection.forward →
      e.source = RSource.inferred →
      ∃ base, stripIdSuffix e.attrName = some base ∧ base ≠ [] ∧
        toLowerL base = toLowerL e.targetTable ∧
        e.targetTable ∈ U.map (fun p => p.1) ∧ e.targetTable ≠ A) ∧
    stripIdSuffix (("Id").data) = none ∧
    inferRelationships (("x").data) (tableOf [attrOf ("Id")])
        [((("x").data), tableOf [attrOf ("Id")]), ((("y").data), tableOf [])] = [] ∧
    inferRelationships (("Order").data) (tableOf [attrOf ("userId")])
        [((("Order").data), tableOf [attrOf ("userId")]),
         ((("User").data), tableOf [])] =
      [fwdEdge (("userId").data) (("User").data) RSource.inferred] ∧
    inferRelationships (("post").data) (tableOf [attrOf ("user_id")])
        [((("post").data), tableOf [attrOf ("user_id")]),
         ((("user").data), tableOf [])] =
      [fwdEdge (("user_id").data) (("user").data) RSource.inferred] ∧
    (∀ (A : List Char) (U : List (List Char × RTable)) (e : RelationshipInfo),
      e ∈ inferRelationships A (tableOf []) U → e.direction = RDirection.reverse) ∧
    (∀ (A : List Char) (sch : RTable) (U : List (List Char × RTable)),
      (∀ p ∈ U, p.1 = A) → ∀ e ∈ inferRelationships A sch U,
        e.source = RSource.api ∧ e.direction = RDirection.forward) := by
  refine ⟨?_, by decide, by decide, by decide, by decide, ?_, ?_⟩
  · intro A sch U e he hdir hsrc
    simp only [inferRelationships] at he
    rcases revPass_mem U _ _ he with hf | ⟨o, sch2, _, _, a, ha, base, h1, h2, hx⟩
    · rcases fwdPass_mem sch.attributes _ _ hf with hinit |
        ⟨a, ha, t, hrel, hx⟩ | ⟨a, ha, hrel, base, mt, hstrip, hget, hmtA, hx⟩
      · simp at hinit
      · rw [hx] at hsrc
        simp [fwdEdge] at hsrc
      · subst hx
        obtain ⟨hkeq, hmem⟩ := mapGetL_buildLower hget
        exact ⟨base, hstrip, (stripIdSuffix_eq hstrip).1, hkeq, hmem, hmtA⟩
    · rw [hx] at hdir
      simp [revEdge] at hdir
  · intro A U e he
    simp only [inferRelationships, tableOf, fwdPass] at he
    rcases revPass_mem U _ _ he with hf | ⟨o, sch2, _, _, a, ha, base, h1, h2, hx⟩
    · simp at hf
    · rw [hx]
      rfl
  · intro A sch U hall e he
    simp only [inferRelationships] at he
    rcases revPass_mem U _ _ he with hf | ⟨o, sch2, hoU, hoB, a, ha, base, h1, h2, hx⟩
    · rcases fwdPass_mem sch.attributes _ _ hf with hinit |
        ⟨a, ha, t, hrel, hx⟩ | ⟨a, ha, hrel, base, mt, hstrip, hget, hmtA, hx⟩
      · simp at hinit
      · rw [hx]
        exact ⟨rfl, rfl⟩
      · exfalso
        obtain ⟨hkeq, hmem⟩ := mapGetL_buildLower hget
        obtain ⟨p, hp, hpeq⟩ := List.mem_map.mp hmem
        exact hmtA (hpeq.symm.trans (hall p hp))
    · exact absurd (hall (o, sch2) hoU) hoB

/-- Claim C9 counterexample: a table with no attributes still yields an
edge when another table holds a back-reference to it — the reverse pass
does not look at the attributes of the table itself. -/
theorem no_attribute_table_edges_counterexample :
    inferRelationships (("a").data) (tableOf [])
      [((("a").data), tableOf []), ((("b").data), tableOf [attrOf ("aId")])] =
      [revEdge (("aId").data) (("b").data)] := by
  decide

theorem forward_matching_rules_witness :
    ∃ base, stripIdSuffix (("userId").data) = some base ∧ base ≠ [] ∧
      toLowerL base = toLowerL (("User").data) ∧
      (("User").data) ∈
        ([((("Order").data), tableOf [attrOf ("userId")]),
          ((("User").data), tableOf [])].map (fun p => p.1)) ∧
      (("User").data) ≠ (("Order").data) := by
  have h := forward_matching_rules.1 (("Order").data) (tableOf [attrOf ("userId")])
    [((("Order").data), tableOf [attrOf ("userId")]), ((("User").data), tableOf [])]
    (fwdEdge (("userId").data) (("User").data) RSource.inferred)
    (by decide) rfl rfl
  simpa [fwdEdge] using h

end WhatsUpDug
